import Mathlib

/-!
Verification of the LIFO page-replacement simulation engine
(`buildStateHistory` and its collaborators in `script.js`).

Pages are natural numbers; a frame slot holds `Option Nat` (`none` is the
empty slot, JS `null`).  The replacement stack is a `List Nat` whose last
element is the top (JS arrays push/pop at the end).
-/

namespace Lifo

/-- JS `Array.prototype.indexOf`: index of the first occurrence of `x`
in `l`, or `none` when absent (JS returns `-1`). -/
def idxOf? {α : Type} [DecidableEq α] (x : α) : List α → Option Nat
  | [] => none
  | a :: rest => if a = x then some 0 else (idxOf? x rest).map (· + 1)

/-- One entry of `state.stateHistory` as built by `buildStateHistory`.
The JS object stores a single `frames`/`stack` pair that holds the
before-snapshot on a hit and is overwritten with the after-snapshot on a
fault; here both snapshots are kept explicitly (on a hit they coincide,
exactly as in the source).  `replacedIndex` and `newPageIndex` keep the
JS `-1` sentinels, hence `Int`. -/
structure StepRecord where
  step : Nat
  page : Nat
  framesBefore : List (Option Nat)
  stackBefore : List Nat
  framesAfter : List (Option Nat)
  stackAfter : List Nat
  isHit : Bool
  isFault : Bool
  replacedPage : Option Nat
  replacedIndex : Int
  newPageIndex : Int
  deriving Repr, DecidableEq

/-- The state change and bookkeeping of one loop iteration of
`buildStateHistory` (script.js lines 262–298), before the snapshot is
stored in the step record. -/
structure StepCore where
  framesNext : List (Option Nat)
  stackNext : List Nat
  hit : Bool
  replacedPage : Option Nat
  replacedIndex : Int
  newPageIndex : Int
  deriving Repr, DecidableEq

/-- Body of the loop of `buildStateHistory`:
* hit test via `frames.indexOf(page)`;
* on fault, `frames.indexOf(null)` picks the first empty slot;
* otherwise `stack.pop()` yields the victim, `frames.indexOf(victim)`
  its slot, which is overwritten, and the new page is pushed.
The two final branches mirror the JS behaviour when the stack is empty
(`pop()` gives `undefined`, `indexOf` gives `-1`, the write to
`frames[-1]` leaves the array elements unchanged) or when the victim is
not resident (`indexOf` gives `-1`, same no-op write). -/
def stepCore (frames : List (Option Nat)) (stack : List Nat) (page : Nat) : StepCore :=
  if (idxOf? (some page) frames).isSome then
    ⟨frames, stack, true, none, -1, -1⟩
  else
    match idxOf? (none : Option Nat) frames with
    | some emptyIndex =>
        ⟨frames.set emptyIndex (some page), stack ++ [page], false,
          none, -1, (emptyIndex : Int)⟩
    | none =>
        match stack.getLast? with
        | some victim =>
            match idxOf? (some victim) frames with
            | some replaceIndex =>
                ⟨frames.set replaceIndex (some page), stack.dropLast ++ [page], false,
                  some victim, (replaceIndex : Int), (replaceIndex : Int)⟩
            | none =>
                ⟨frames, stack.dropLast ++ [page], false, some victim, -1, -1⟩
        | none =>
            ⟨frames, stack.dropLast ++ [page], false, none, -1, -1⟩

/-- One loop iteration of `buildStateHistory`: builds the `stepData`
record for the reference at 0-based position `i` and returns it together
with the updated frames and stack. -/
def processPage (frames : List (Option Nat)) (stack : List Nat) (i page : Nat) :
    StepRecord × List (Option Nat) × List Nat :=
  let c := stepCore frames stack page
  (⟨i + 1, page, frames, stack, c.framesNext, c.stackNext,
      c.hit, !c.hit, c.replacedPage, c.replacedIndex, c.newPageIndex⟩,
    c.framesNext, c.stackNext)

/-- The loop of `buildStateHistory` over the remaining references,
`i` being the 0-based position of the first of them. -/
def buildHist (frames : List (Option Nat)) (stack : List Nat) (i : Nat) :
    List Nat → List StepRecord
  | [] => []
  | page :: rest =>
      match processPage frames stack i page with
      | (r, frames', stack') => r :: buildHist frames' stack' (i + 1) rest

/-- `buildStateHistory` (script.js lines 240–302): frames start as
`frameCount` empty slots, the stack starts empty, and every reference is
processed in order. -/
def buildStateHistory (frameCount : Nat) (referenceString : List Nat) : List StepRecord :=
  buildHist (List.replicate frameCount none) [] 0 referenceString

/-- The single error kind of the input gate. -/
inductive LoadError where
  | invalidInput
  deriving Repr, DecidableEq

/-- `loadAndValidate` (script.js lines 134–141), restricted to its
algorithmic content: the frame count must lie in `1..10`, otherwise the
load is rejected and no history is built.  String parsing of the
reference input is UI glue and is taken as already done. -/
def loadAndValidate (framesValue : Int) (referenceString : List Nat) :
    Except LoadError (List StepRecord) :=
  if framesValue < 1 ∨ framesValue > 10 then
    Except.error LoadError.invalidInput
  else
    Except.ok (buildStateHistory framesValue.toNat referenceString)

/-- The hit-ratio computation of `renderStats` (script.js lines 520–537)
over a full history: `total > 0 ? hits / total * 100 : 0`. -/
def hitRatioPercent (history : List StepRecord) : ℚ :=
  let hits := (history.filter (fun r => r.isHit)).length
  let faults := (history.filter (fun r => r.isFault)).length
  let total := hits + faults
  if 0 < total then (hits : ℚ) * 100 / (total : ℚ) else 0

/-! ### Basic facts about `idxOf?` -/

theorem idxOf?_eq_none_iff {α : Type} [DecidableEq α] {x : α} :
    ∀ {l : List α}, idxOf? x l = none ↔ x ∉ l
  | [] => by simp [idxOf?]
  | a :: rest => by
    rw [idxOf?]
    by_cases h : a = x
    · simp [h]
    · have hne : x ≠ a := fun hx => h hx.symm
      simp [h, hne, Option.map_eq_none', idxOf?_eq_none_iff (l := rest)]

theorem idxOf?_isSome_iff {α : Type} [DecidableEq α] {x : α} {l : List α} :
    (idxOf? x l).isSome ↔ x ∈ l := by
  rw [Option.isSome_iff_ne_none, not_iff_comm, idxOf?_eq_none_iff]

theorem idxOf?_spec {α : Type} [DecidableEq α] {x : α} :
    ∀ {l : List α} {n : Nat}, idxOf? x l = some n →
      ∃ hn : n < l.length, l.get ⟨n, hn⟩ = x ∧
        ∀ m, m < n → ∀ hm : m < l.length, l.get ⟨m, hm⟩ ≠ x
  | [], n => by simp [idxOf?]
  | a :: rest, n => by
    rw [idxOf?]
    by_cases h : a = x
    · rw [if_pos h]
      intro he
      obtain rfl : n = 0 := (Option.some.inj he).symm
      exact ⟨by simp, by simpa using h, fun m hm _ => absurd hm (by omega)⟩
    · rw [if_neg h]
      intro he
      obtain ⟨k, hk, rfl⟩ := Option.map_eq_some'.mp he
      obtain ⟨hkl, hget, hmin⟩ := idxOf?_spec hk
      refine ⟨by simpa using hkl, by simpa using hget, ?_⟩
      intro m hm hml
      cases m with
      | zero => simpa using h
      | succ j =>
          have hj : j < k := by omega
          have hjl : j < rest.length := by simpa using hml
          simpa using hmin j hj hjl

theorem mem_set_iff {α : Type} {l : List α} {e : Nat} (he : e < l.length) (b x : α) :
    x ∈ l.set e b ↔ x = b ∨ ∃ j, ∃ hj : j < l.length, j ≠ e ∧ l.get ⟨j, hj⟩ = x := by
  constructor
  · intro hx
    obtain ⟨n, hn, hget⟩ := List.mem_iff_getElem.mp hx
    rw [List.getElem_set] at hget
    by_cases hne : e = n
    · left
      rw [if_pos hne] at hget
      exact hget.symm
    · right
      rw [if_neg hne] at hget
      exact ⟨n, by simpa using hn, fun hc => hne hc.symm, hget⟩
  · rintro (rfl | ⟨j, hj, hje, hget⟩)
    · refine List.mem_iff_getElem.mpr ⟨e, by simpa using he, ?_⟩
      rw [List.getElem_set, if_pos rfl]
    · refine List.mem_iff_getElem.mpr ⟨j, by simpa using hj, ?_⟩
      rw [List.getElem_set, if_neg (fun hc => hje hc.symm)]
      exact hget

/-! ### Branch characterizations of `processPage` -/

theorem processPage_hit (frames : List (Option Nat)) (stack : List Nat) (i page : Nat)
    (h : some page ∈ frames) :
    processPage frames stack i page =
      (⟨i + 1, page, frames, stack, frames, stack, true, false, none, -1, -1⟩,
        frames, stack) := by
  unfold processPage stepCore
  rw [if_pos (idxOf?_isSome_iff.mpr h)]
  rfl

theorem processPage_fault_empty (frames : List (Option Nat)) (stack : List Nat) (i page : Nat)
    (hpage : some page ∉ frames) {e : Nat}
    (he : idxOf? (none : Option Nat) frames = some e) :
    processPage frames stack i page =
      (⟨i + 1, page, frames, stack, frames.set e (some page), stack ++ [page],
          false, true, none, -1, (e : Int)⟩,
        frames.set e (some page), stack ++ [page]) := by
  unfold processPage stepCore
  rw [if_neg (fun hc => hpage (idxOf?_isSome_iff.mp hc)), he]
  rfl

theorem processPage_fault_full (frames : List (Option Nat)) (stack : List Nat) (i page : Nat)
    (hpage : some page ∉ frames)
    (hfull : idxOf? (none : Option Nat) frames = none)
    {victim : Nat} (hv : stack.getLast? = some victim)
    {rIdx : Nat} (hr : idxOf? (some victim) frames = some rIdx) :
    processPage frames stack i page =
      (⟨i + 1, page, frames, stack, frames.set rIdx (some page), stack.dropLast ++ [page],
          false, true, some victim, (rIdx : Int), (rIdx : Int)⟩,
        frames.set rIdx (some page), stack.dropLast ++ [page]) := by
  unfold processPage stepCore
  rw [if_neg (fun hc => hpage (idxOf?_isSome_iff.mp hc)), hfull, hv]
  dsimp only
  rw [hr]
  rfl

/-! ### The engine invariant

The frames always hold `frameCount` slots, the stack holds each resident
page exactly once, its element set is the set of resident pages, and no
page occupies two slots at once. -/

structure Inv (fc : Nat) (frames : List (Option Nat)) (stack : List Nat) : Prop where
  len : frames.length = fc
  nodupStack : stack.Nodup
  mem_iff : ∀ p : Nat, p ∈ stack ↔ (some p) ∈ frames
  uniq : ∀ (j k : Nat) (hj : j < frames.length) (hk : k < frames.length) (p : Nat),
    frames.get ⟨j, hj⟩ = some p → frames.get ⟨k, hk⟩ = some p → j = k

theorem inv_init (fc : Nat) : Inv fc (List.replicate fc none) [] where
  len := by simp
  nodupStack := List.nodup_nil
  mem_iff := fun p => by simp [List.eq_of_mem_replicate]
  uniq := fun j k hj hk p hjp _ => by simp at hjp

theorem inv_fill (fc : Nat) {frames : List (Option Nat)} {stack : List Nat}
    (hinv : Inv fc frames stack) {page e : Nat}
    (hpage : some page ∉ frames) (he : e < frames.length)
    (hnone : frames.get ⟨e, he⟩ = none) :
    Inv fc (frames.set e (some page)) (stack ++ [page]) where
  len := by simp [hinv.len]
  nodupStack := by
    rw [List.nodup_append]
    refine ⟨hinv.nodupStack, by simp, ?_⟩
    intro a ha hb
    obtain rfl : a = page := by simpa using hb
    exact hpage ((hinv.mem_iff a).mp ha)
  mem_iff := by
    intro q
    rw [List.mem_append, mem_set_iff he]
    constructor
    · rintro (hq | hq)
      · obtain ⟨j, hj, hget⟩ := List.mem_iff_getElem.mp ((hinv.mem_iff q).mp hq)
        have hget' : frames.get ⟨j, hj⟩ = some q := hget
        have hje : j ≠ e := by
          intro hc
          cases hc
          exact Option.noConfusion (hnone.symm.trans hget')
        exact Or.inr ⟨j, hj, hje, hget⟩
      · obtain rfl : q = page := by simpa using hq
        exact Or.inl rfl
    · rintro (hq | ⟨j, hj, hje, hget⟩)
      · right
        simpa using Option.some.inj hq
      · left
        exact (hinv.mem_iff q).mpr (List.mem_iff_getElem.mpr ⟨j, hj, hget⟩)
  uniq := by
    intro j k hj hk p hjp hkp
    have hj' : j < frames.length := by simpa using hj
    have hk' : k < frames.length := by simpa using hk
    rw [List.get_eq_getElem, List.getElem_set] at hjp hkp
    by_cases hej : e = j <;> by_cases hek : e = k
    · omega
    · rw [if_pos hej] at hjp
      rw [if_neg hek] at hkp
      obtain rfl : page = p := Option.some.inj hjp
      exact absurd (List.mem_iff_getElem.mpr ⟨k, hk', hkp⟩) hpage
    · rw [if_neg hej] at hjp
      rw [if_pos hek] at hkp
      obtain rfl : page = p := Option.some.inj hkp
      exact absurd (List.mem_iff_getElem.mpr ⟨j, hj', hjp⟩) hpage
    · rw [if_neg hej] at hjp
      rw [if_neg hek] at hkp
      exact hinv.uniq j k hj' hk' p hjp hkp

theorem inv_replace (fc : Nat) {frames : List (Option Nat)} {stack ys : List Nat}
    (hinv : Inv fc frames stack) {page victim rIdx : Nat}
    (hpage : some page ∉ frames) (hstack : stack = ys ++ [victim])
    (hr : rIdx < frames.length) (hvic : frames.get ⟨rIdx, hr⟩ = some victim) :
    Inv fc (frames.set rIdx (some page)) (ys ++ [page]) where
  len := by simp [hinv.len]
  nodupStack := by
    have hnd := hinv.nodupStack
    rw [hstack, List.nodup_append] at hnd
    rw [List.nodup_append]
    refine ⟨hnd.1, by simp, ?_⟩
    intro a ha hb
    obtain rfl : a = page := by simpa using hb
    have : a ∈ stack := by
      rw [hstack]
      exact List.mem_append_left _ ha
    exact hpage ((hinv.mem_iff a).mp this)
  mem_iff := by
    have hvicys : victim ∉ ys := by
      have hnd := hinv.nodupStack
      rw [hstack, List.nodup_append] at hnd
      intro hc
      exact hnd.2.2 hc (by simp)
    intro q
    rw [List.mem_append, mem_set_iff hr]
    constructor
    · rintro (hq | hq)
      · have hqstack : q ∈ stack := by
          rw [hstack]
          exact List.mem_append_left _ hq
        obtain ⟨j, hj, hget⟩ := List.mem_iff_getElem.mp ((hinv.mem_iff q).mp hqstack)
        have hget' : frames.get ⟨j, hj⟩ = some q := hget
        have hqv : q ≠ victim := fun hc => hvicys (hc ▸ hq)
        have hje : j ≠ rIdx := by
          intro hc
          cases hc
          exact hqv (Option.some.inj (hget'.symm.trans hvic))
        exact Or.inr ⟨j, hj, hje, hget⟩
      · obtain rfl : q = page := by simpa using hq
        exact Or.inl rfl
    · rintro (hq | ⟨j, hj, hje, hget⟩)
      · right
        simpa using Option.some.inj hq
      · left
        have hqstack : q ∈ stack :=
          (hinv.mem_iff q).mpr (List.mem_iff_getElem.mpr ⟨j, hj, hget⟩)
        rw [hstack, List.mem_append] at hqstack
        rcases hqstack with hq | hq
        · exact hq
        · obtain rfl : q = victim := by simpa using hq
          rw [List.get_eq_getElem] at hvic
          exact absurd (hinv.uniq j rIdx hj hr q hget hvic) hje
  uniq := by
    intro j k hj hk p hjp hkp
    have hj' : j < frames.length := by simpa using hj
    have hk' : k < frames.length := by simpa using hk
    rw [List.get_eq_getElem, List.getElem_set] at hjp hkp
    by_cases hej : rIdx = j <;> by_cases hek : rIdx = k
    · omega
    · rw [if_pos hej] at hjp
      rw [if_neg hek] at hkp
      obtain rfl : page = p := Option.some.inj hjp
      exact absurd (List.mem_iff_getElem.mpr ⟨k, hk', hkp⟩) hpage
    · rw [if_neg hej] at hjp
      rw [if_pos hek] at hkp
      obtain rfl : page = p := Option.some.inj hkp
      exact absurd (List.mem_iff_getElem.mpr ⟨j, hj', hjp⟩) hpage
    · rw [if_neg hej] at hjp
      rw [if_neg hek] at hkp
      exact hinv.uniq j k hj' hk' p hjp hkp

/-- When every slot is full and at least one frame exists, the stack is
nonempty and its top page is resident, so `frames.indexOf(victim)`
succeeds. -/
theorem full_stack_top (fc : Nat) (hfc : 1 ≤ fc) {frames : List (Option Nat)}
    {stack : List Nat} (hinv : Inv fc frames stack)
    (hfull : (none : Option Nat) ∉ frames) :
    ∃ victim, stack.getLast? = some victim ∧
      ∃ rIdx, idxOf? (some victim) frames = some rIdx := by
  have h0 : 0 < frames.length := by
    rw [hinv.len]
    omega
  have hne : stack ≠ [] := by
    cases hq : frames.get ⟨0, h0⟩ with
    | none =>
        exact absurd (List.mem_iff_getElem.mpr ⟨0, h0, hq⟩) hfull
    | some q =>
        have hqs : q ∈ stack :=
          (hinv.mem_iff q).mpr (List.mem_iff_getElem.mpr ⟨0, h0, hq⟩)
        exact List.ne_nil_of_mem hqs
  obtain ⟨victim, hv⟩ := Option.isSome_iff_exists.mp (List.getLast?_isSome.mpr hne)
  refine ⟨victim, hv, ?_⟩
  have hmem : victim ∈ stack := by
    obtain ⟨ys, hys⟩ := List.getLast?_eq_some_iff.mp hv
    rw [hys]
    simp
  have : (idxOf? (some victim) frames).isSome :=
    idxOf?_isSome_iff.mpr ((hinv.mem_iff victim).mp hmem)
  exact Option.isSome_iff_exists.mp this

theorem inv_processPage (fc : Nat) (hfc : 1 ≤ fc) {frames : List (Option Nat)}
    {stack : List Nat} (hinv : Inv fc frames stack) (i page : Nat) :
    Inv fc (processPage frames stack i page).2.1 (processPage frames stack i page).2.2 := by
  by_cases hhit : some page ∈ frames
  · rw [processPage_hit frames stack i page hhit]
    exact hinv
  · cases hempty : idxOf? (none : Option Nat) frames with
    | some e =>
        rw [processPage_fault_empty frames stack i page hhit hempty]
        obtain ⟨he, hnone, -⟩ := idxOf?_spec hempty
        exact inv_fill fc hinv hhit he hnone
    | none =>
        have hfull : (none : Option Nat) ∉ frames := idxOf?_eq_none_iff.mp hempty
        obtain ⟨victim, hv, rIdx, hr⟩ := full_stack_top fc hfc hinv hfull
        rw [processPage_fault_full frames stack i page hhit hempty hv hr]
        obtain ⟨hrl, hvic, -⟩ := idxOf?_spec hr
        obtain ⟨ys, hys⟩ := List.getLast?_eq_some_iff.mp hv
        rw [hys, List.dropLast_concat]
        exact inv_replace fc hinv hhit hys hrl hvic

theorem inv_stack_length_le (fc : Nat) {frames : List (Option Nat)} {stack : List Nat}
    (hinv : Inv fc frames stack) : stack.length ≤ fc := by
  have hsub : stack.map some ⊆ frames := by
    intro x hx
    obtain ⟨q, hq, rfl⟩ := List.mem_map.mp hx
    exact (hinv.mem_iff q).mp hq
  have hnd : (stack.map some).Nodup :=
    hinv.nodupStack.map (Option.some_injective Nat)
  have hle := (hnd.subperm hsub).length_le
  rw [List.length_map] at hle
  have := hinv.len
  omega

/-! ### The history as a chained trace -/

theorem buildHist_nil (frames : List (Option Nat)) (stack : List Nat) (i : Nat) :
    buildHist frames stack i [] = [] := rfl

theorem buildHist_cons (frames : List (Option Nat)) (stack : List Nat) (i page : Nat)
    (rest : List Nat) :
    buildHist frames stack i (page :: rest) =
      (processPage frames stack i page).1 ::
        buildHist (processPage frames stack i page).2.1
          (processPage frames stack i page).2.2 (i + 1) rest := rfl

theorem buildHist_length :
    ∀ (refs : List Nat) (frames : List (Option Nat)) (stack : List Nat) (i : Nat),
      (buildHist frames stack i refs).length = refs.length
  | [], _, _, _ => rfl
  | _ :: rest, f, s, i => by
      rw [buildHist_cons]
      simpa using buildHist_length rest _ _ (i + 1)

theorem buildHist_get_step_page :
    ∀ (refs : List Nat) (frames : List (Option Nat)) (stack : List Nat) (i k : Nat)
      (hk : k < (buildHist frames stack i refs).length),
      ∃ hk' : k < refs.length,
        ((buildHist frames stack i refs).get ⟨k, hk⟩).step = i + k + 1 ∧
        ((buildHist frames stack i refs).get ⟨k, hk⟩).page = refs.get ⟨k, hk'⟩
  | [], f, s, i, k, hk => by
      rw [buildHist_nil] at hk
      exact absurd hk (by simp)
  | p :: rest, f, s, i, k, hk => by
      cases k with
      | zero =>
          exact ⟨by simp, by simp [buildHist_cons, processPage], by simp [buildHist_cons, processPage]⟩
      | succ k' =>
          have hk2 : k' < (buildHist (processPage f s i p).2.1 (processPage f s i p).2.2
              (i + 1) rest).length := by
            rw [buildHist_cons] at hk
            simpa using hk
          obtain ⟨hk', hstep, hpage⟩ :=
            buildHist_get_step_page rest (processPage f s i p).2.1
              (processPage f s i p).2.2 (i + 1) k' hk2
          refine ⟨by simpa using hk', ?_, ?_⟩
          · rw [show ((buildHist f s i (p :: rest)).get ⟨k' + 1, hk⟩) =
                ((buildHist (processPage f s i p).2.1 (processPage f s i p).2.2
                  (i + 1) rest).get ⟨k', hk2⟩) from rfl]
            rw [hstep]
            omega
          · rw [show ((buildHist f s i (p :: rest)).get ⟨k' + 1, hk⟩) =
                ((buildHist (processPage f s i p).2.1 (processPage f s i p).2.2
                  (i + 1) rest).get ⟨k', hk2⟩) from rfl]
            rw [hpage]
            rfl

theorem buildHist_mem (fc : Nat) (hfc : 1 ≤ fc) :
    ∀ (refs : List Nat) (frames : List (Option Nat)) (stack : List Nat) (i : Nat),
      Inv fc frames stack →
      ∀ (r : StepRecord), r ∈ buildHist frames stack i refs →
        ∃ f s j p, Inv fc f s ∧ r = (processPage f s j p).1
  | [], _, _, _, _, _, hr => absurd hr (by simp [buildHist_nil])
  | p :: rest, f, s, i, hinv, r, hr => by
      rw [buildHist_cons, List.mem_cons] at hr
      rcases hr with rfl | hr
      · exact ⟨f, s, i, p, hinv, rfl⟩
      · exact buildHist_mem fc hfc rest _ _ (i + 1) (inv_processPage fc hfc hinv i p) r hr

theorem buildHist_chain :
    ∀ (refs : List Nat) (frames : List (Option Nat)) (stack : List Nat) (i k : Nat)
      (hk1 : k + 1 < (buildHist frames stack i refs).length),
      ((buildHist frames stack i refs).get ⟨k + 1, hk1⟩).framesBefore =
        ((buildHist frames stack i refs).get ⟨k, by omega⟩).framesAfter ∧
      ((buildHist frames stack i refs).get ⟨k + 1, hk1⟩).stackBefore =
        ((buildHist frames stack i refs).get ⟨k, by omega⟩).stackAfter
  | [], f, s, i, k, hk1 => by
      rw [buildHist_nil] at hk1
      exact absurd hk1 (by simp)
  | p :: rest, f, s, i, k, hk1 => by
      cases k with
      | zero =>
          cases rest with
          | nil =>
              rw [buildHist_cons, buildHist_nil] at hk1
              exact absurd hk1 (by simp)
          | cons q rest' =>
              constructor <;> rfl
      | succ k' =>
          have hk2 : k' + 1 < (buildHist (processPage f s i p).2.1
              (processPage f s i p).2.2 (i + 1) rest).length := by
            rw [buildHist_cons] at hk1
            simpa using hk1
          have := buildHist_chain rest (processPage f s i p).2.1
            (processPage f s i p).2.2 (i + 1) k' hk2
          exact this

theorem buildHist_mem_step :
    ∀ (refs : List Nat) (frames : List (Option Nat)) (stack : List Nat) (i : Nat)
      (r : StepRecord), r ∈ buildHist frames stack i refs →
      ∃ f s j p, r = (processPage f s j p).1
  | [], _, _, _, _, hr => absurd hr (by simp [buildHist_nil])
  | p :: rest, f, s, i, r, hr => by
      rw [buildHist_cons, List.mem_cons] at hr
      rcases hr with rfl | hr
      · exact ⟨f, s, i, p, rfl⟩
      · exact buildHist_mem_step rest _ _ (i + 1) r hr

/-! ### The claims -/

/-- C7: for every reference string of length N and every frameCount ≥ 1,
the engine returns exactly N StepRecords, one per input reference in
input order, with their `step` fields forming the sequence 1..N. -/
theorem C7_length_and_step_fields (fc : Nat) (refs : List Nat) (hfc : 1 ≤ fc) :
    (buildStateHistory fc refs).length = refs.length ∧
    ∀ k (hk : k < (buildStateHistory fc refs).length),
      ((buildStateHistory fc refs).get ⟨k, hk⟩).step = k + 1 ∧
      ∃ hk' : k < refs.length,
        ((buildStateHistory fc refs).get ⟨k, hk⟩).page = refs.get ⟨k, hk'⟩ := by
  refine ⟨buildHist_length refs _ _ 0, ?_⟩
  intro k hk
  obtain ⟨hk', hstep, hpage⟩ := buildHist_get_step_page refs _ _ 0 k hk
  exact ⟨by simpa using hstep, hk', hpage⟩

theorem C7_witness :
    (buildStateHistory 1 [5, 6, 5]).length = 3 ∧
    ((buildStateHistory 1 [5, 6, 5]).get ⟨2, by decide⟩).step = 3 := by
  obtain ⟨hlen, hsteps⟩ := C7_length_and_step_fields 1 [5, 6, 5] (by decide)
  exact ⟨hlen, (hsteps 2 (by decide)).1⟩

/-- C3: invoking the engine through the input gate with
frameCount = 0, or any frameCount < 1, raises InvalidInput and produces
no StepRecords. -/
theorem C3_invalid_frame_count (framesValue : Int) (refs : List Nat)
    (h : framesValue < 1) :
    loadAndValidate framesValue refs = Except.error LoadError.invalidInput := by
  unfold loadAndValidate
  rw [if_pos (Or.inl h)]

theorem C3_witness :
    loadAndValidate 0 [7, 0, 1] = Except.error LoadError.invalidInput :=
  C3_invalid_frame_count 0 [7, 0, 1] (by decide)

/-- C8: an empty referenceString is legal: the engine returns an empty
StepRecord sequence (zero steps, zero hits, zero faults) and the hit
ratio over it is 0%, not NaN or an error. -/
theorem C8_empty_reference_string (fc : Nat) :
    buildStateHistory fc [] = [] ∧
    ((buildStateHistory fc []).filter (fun r => r.isHit)).length = 0 ∧
    ((buildStateHistory fc []).filter (fun r => r.isFault)).length = 0 ∧
    hitRatioPercent (buildStateHistory fc []) = 0 :=
  ⟨rfl, rfl, rfl, rfl⟩

/-- C2: the end-to-end example `[7,0,1,2,0,3,0,4]` with 3 frames yields
exactly the documented outcomes in order, 6 faults, 2 hits, and the
final stack's top element 4. -/
theorem C2_end_to_end_example :
    ((buildStateHistory 3 [7, 0, 1, 2, 0, 3, 0, 4]).map
        (fun r => (r.page, r.isHit, r.isFault, r.newPageIndex, r.replacedPage)) =
      [(7, false, true, 0, none), (0, false, true, 1, none), (1, false, true, 2, none),
       (2, false, true, 2, some 1), (0, true, false, -1, none),
       (3, false, true, 2, some 2), (0, true, false, -1, none),
       (4, false, true, 2, some 3)]) ∧
    ((buildStateHistory 3 [7, 0, 1, 2, 0, 3, 0, 4]).filter (fun r => r.isFault)).length = 6 ∧
    ((buildStateHistory 3 [7, 0, 1, 2, 0, 3, 0, 4]).filter (fun r => r.isHit)).length = 2 ∧
    ((buildStateHistory 3 [7, 0, 1, 2, 0, 3, 0, 4]).getLast?).map
        (fun r => r.stackAfter.getLast?) = some (some 4) := by
  decide

/-- C5: for every step whose requested page already occupies some frame
slot, the record is a Hit, the after-snapshots equal the before-snapshots,
and the stack equals the previous step's stack. -/
theorem C5_hit_leaves_state_unchanged (fc : Nat) (refs : List Nat) (k : Nat)
    (hk : k < (buildStateHistory fc refs).length)
    (hres : some ((buildStateHistory fc refs).get ⟨k, hk⟩).page ∈
      ((buildStateHistory fc refs).get ⟨k, hk⟩).framesBefore) :
    ((buildStateHistory fc refs).get ⟨k, hk⟩).isHit = true ∧
    ((buildStateHistory fc refs).get ⟨k, hk⟩).framesAfter =
      ((buildStateHistory fc refs).get ⟨k, hk⟩).framesBefore ∧
    ((buildStateHistory fc refs).get ⟨k, hk⟩).stackAfter =
      ((buildStateHistory fc refs).get ⟨k, hk⟩).stackBefore ∧
    (1 ≤ k →
      ((buildStateHistory fc refs).get ⟨k, hk⟩).stackAfter =
        ((buildStateHistory fc refs).get ⟨k - 1, by omega⟩).stackAfter) := by
  have hmem : (buildStateHistory fc refs).get ⟨k, hk⟩ ∈ buildStateHistory fc refs :=
    List.get_mem _ _ hk
  obtain ⟨f, s, j, p, heq⟩ := buildHist_mem_step refs _ _ 0 _ hmem
  have hres' : some p ∈ f := by
    rw [heq] at hres
    exact hres
  have hpp := processPage_hit f s j p hres'
  refine ⟨?_, ?_, ?_, ?_⟩
  · rw [heq, hpp]
  · rw [heq, hpp]
  · rw [heq, hpp]
  · intro h1
    obtain ⟨k', rfl⟩ : ∃ k', k = k' + 1 := ⟨k - 1, by omega⟩
    have hch : ((buildStateHistory fc refs).get ⟨k' + 1, hk⟩).stackBefore =
        ((buildStateHistory fc refs).get ⟨k', by omega⟩).stackAfter :=
      (buildHist_chain refs (List.replicate fc none) [] 0 k' hk).2
    rw [heq] at hch
    rw [heq, hpp]
    exact hch

theorem C5_witness :
    ((buildStateHistory 1 [3, 3]).get ⟨1, by decide⟩).isHit = true ∧
    ((buildStateHistory 1 [3, 3]).get ⟨1, by decide⟩).stackAfter =
      ((buildStateHistory 1 [3, 3]).get ⟨0, by decide⟩).stackAfter := by
  obtain ⟨hhit, -, -, hprev⟩ :=
    C5_hit_leaves_state_unchanged 1 [3, 3] 1 (by decide) (by decide)
  exact ⟨hhit, hprev (by decide)⟩

/-- C6: for every step whose requested page occupies no frame slot while
at least one slot is empty, the engine places the page into the
lowest-indexed empty slot, pushes it onto the top of the stack, and
records a Fault with targetSlotIndex = that slot and no eviction. -/
theorem C6_fault_into_lowest_empty_slot (fc : Nat) (refs : List Nat)
    (r : StepRecord) (hr : r ∈ buildStateHistory fc refs)
    (hmiss : some r.page ∉ r.framesBefore)
    (hempty : (none : Option Nat) ∈ r.framesBefore) :
    r.isFault = true ∧ r.isHit = false ∧ r.replacedPage = none ∧
    r.replacedIndex = -1 ∧
    ∃ e, ∃ he : e < r.framesBefore.length,
      r.framesBefore.get ⟨e, he⟩ = none ∧
      (∀ m, m < e → ∀ hm : m < r.framesBefore.length,
        r.framesBefore.get ⟨m, hm⟩ ≠ none) ∧
      r.framesAfter = r.framesBefore.set e (some r.page) ∧
      r.stackAfter = r.stackBefore ++ [r.page] ∧
      r.newPageIndex = (e : Int) := by
  obtain ⟨f, s, j, p, rfl⟩ := buildHist_mem_step refs _ _ 0 r hr
  have hmiss' : some p ∉ f := hmiss
  have hempty' : (none : Option Nat) ∈ f := hempty
  obtain ⟨e, he⟩ := Option.isSome_iff_exists.mp (idxOf?_isSome_iff.mpr hempty')
  obtain ⟨hel, hnone, hmin⟩ := idxOf?_spec he
  rw [processPage_fault_empty f s j p hmiss' he]
  exact ⟨rfl, rfl, rfl, rfl, e, hel, hnone, hmin, rfl, rfl, rfl⟩

theorem C6_witness :
    (StepRecord.mk 2 5 [some 4, none] [4] [some 4, some 5] [4, 5]
        false true none (-1) 1).stackAfter = [4, 5] ∧
    (StepRecord.mk 2 5 [some 4, none] [4] [some 4, some 5] [4, 5]
        false true none (-1) 1).replacedPage = none := by
  obtain ⟨-, -, hrep, -, e, he, hnone, -, -, hstk, -⟩ :=
    C6_fault_into_lowest_empty_slot 2 [4, 5]
      (StepRecord.mk 2 5 [some 4, none] [4] [some 4, some 5] [4, 5]
        false true none (-1) 1) (by decide) (by decide) (by decide)
  exact ⟨hstk, hrep⟩

/-- C1: whenever a requested page occupies no frame slot and no slot is
empty, the engine pops the top of the stack as the victim, overwrites the
slot currently holding the victim with the new page, pushes the new page
onto the top of the stack, and records a Fault with targetSlotIndex = the
overwritten slot and replacedPage = the victim, the previous top of
stack. -/
theorem C1_fault_when_full_evicts_top_of_stack (fc : Nat) (refs : List Nat) (hfc : 1 ≤ fc)
    (r : StepRecord) (hr : r ∈ buildStateHistory fc refs)
    (hmiss : some r.page ∉ r.framesBefore)
    (hfull : (none : Option Nat) ∉ r.framesBefore) :
    ∃ victim, r.stackBefore.getLast? = some victim ∧
      r.isFault = true ∧ r.isHit = false ∧
      r.replacedPage = some victim ∧
      r.stackAfter = r.stackBefore.dropLast ++ [r.page] ∧
      ∃ rIdx, ∃ hIdx : rIdx < r.framesBefore.length,
        r.framesBefore.get ⟨rIdx, hIdx⟩ = some victim ∧
        r.framesAfter = r.framesBefore.set rIdx (some r.page) ∧
        r.newPageIndex = (rIdx : Int) ∧ r.replacedIndex = (rIdx : Int) := by
  obtain ⟨f, s, j, p, hinv, rfl⟩ := buildHist_mem fc hfc refs _ _ 0 (inv_init fc) r hr
  have hmiss' : some p ∉ f := hmiss
  have hfull' : (none : Option Nat) ∉ f := hfull
  have hempty : idxOf? (none : Option Nat) f = none := idxOf?_eq_none_iff.mpr hfull'
  obtain ⟨victim, hv, rIdx, hidx⟩ := full_stack_top fc hfc hinv hfull'
  obtain ⟨hrl, hvic, -⟩ := idxOf?_spec hidx
  rw [processPage_fault_full f s j p hmiss' hempty hv hidx]
  exact ⟨victim, hv, rfl, rfl, rfl, rfl, rIdx, hrl, hvic, rfl, rfl, rfl⟩

theorem C1_witness :
    (StepRecord.mk 2 1 [some 0] [0] [some 1] [1] false true (some 0) 0 0).replacedPage
        = some 0 ∧
    (StepRecord.mk 2 1 [some 0] [0] [some 1] [1] false true (some 0) 0 0).stackAfter
        = [1] := by
  obtain ⟨victim, hv, -, -, hrep, hstk, -⟩ :=
    C1_fault_when_full_evicts_top_of_stack 1 [0, 1] (by decide)
      (StepRecord.mk 2 1 [some 0] [0] [some 1] [1] false true (some 0) 0 0)
      (by decide) (by decide) (by decide)
  have h0 : (StepRecord.mk 2 1 [some 0] [0] [some 1] [1] false true
      (some 0) 0 0).stackBefore.getLast? = some 0 := by decide
  rw [h0] at hv
  obtain rfl : (0 : Nat) = victim := Option.some.inj hv
  exact ⟨hrep, hstk⟩

/-- C9: in the all-slots-full fault branch the stack is never empty, the
popped victim always occupies some frame, the victim lookup never yields
the -1 sentinel, and the overwrite targets a valid slot index in
[0, frameCount). -/
theorem C9_full_branch_never_degenerate (fc : Nat) (refs : List Nat) (hfc : 1 ≤ fc)
    (r : StepRecord) (hr : r ∈ buildStateHistory fc refs)
    (hmiss : some r.page ∉ r.framesBefore)
    (hfull : (none : Option Nat) ∉ r.framesBefore) :
    r.stackBefore ≠ [] ∧
    ∃ victim, r.stackBefore.getLast? = some victim ∧
      some victim ∈ r.framesBefore ∧
      idxOf? (some victim) r.framesBefore ≠ none ∧
      (0 : Int) ≤ r.newPageIndex ∧ r.newPageIndex < (fc : Int) ∧
      r.replacedIndex = r.newPageIndex := by
  obtain ⟨f, s, j, p, hinv, rfl⟩ := buildHist_mem fc hfc refs _ _ 0 (inv_init fc) r hr
  have hmiss' : some p ∉ f := hmiss
  have hfull' : (none : Option Nat) ∉ f := hfull
  have hempty : idxOf? (none : Option Nat) f = none := idxOf?_eq_none_iff.mpr hfull'
  obtain ⟨victim, hv, rIdx, hidx⟩ := full_stack_top fc hfc hinv hfull'
  obtain ⟨hrl, hvic, -⟩ := idxOf?_spec hidx
  rw [processPage_fault_full f s j p hmiss' hempty hv hidx]
  refine ⟨?_, victim, hv, hvic ▸ List.get_mem f rIdx hrl, ?_, ?_, ?_, rfl⟩
  · intro hnil
    have hs : s = [] := hnil
    rw [hs] at hv
    simp at hv
  · exact fun hc => Option.noConfusion (hidx.symm.trans hc)
  · exact Int.natCast_nonneg rIdx
  · have hlt : rIdx < fc := by
      have := hinv.len
      omega
    have hlt2 : ((rIdx : Nat) : Int) < ((fc : Nat) : Int) := by exact_mod_cast hlt
    exact hlt2

theorem C9_witness :
    (StepRecord.mk 3 3 [some 1, some 2] [1, 2] [some 1, some 3] [1, 3]
        false true (some 2) 1 1).stackBefore ≠ [] ∧
    (0 : Int) ≤ (StepRecord.mk 3 3 [some 1, some 2] [1, 2] [some 1, some 3] [1, 3]
        false true (some 2) 1 1).newPageIndex := by
  obtain ⟨hne, victim, -, -, -, hpos, -, -⟩ :=
    C9_full_branch_never_degenerate 2 [1, 2, 3] (by decide)
      (StepRecord.mk 3 3 [some 1, some 2] [1, 2] [some 1, some 3] [1, 3]
        false true (some 2) 1 1) (by decide) (by decide) (by decide)
  exact ⟨hne, hpos⟩

/-- C10: every produced StepRecord has exactly one of isHit and isFault
true; a Hit record retains the sentinels replacedPage = null,
replacedIndex = -1, newPageIndex = -1; a Fault record has
newPageIndex ≥ 0. -/
theorem C10_outcome_flags_and_sentinels (fc : Nat) (refs : List Nat) (hfc : 1 ≤ fc)
    (r : StepRecord) (hr : r ∈ buildStateHistory fc refs) :
    (r.isHit = true ∧ r.isFault = false ∨ r.isHit = false ∧ r.isFault = true) ∧
    (r.isHit = true → r.replacedPage = none ∧ r.replacedIndex = -1 ∧ r.newPageIndex = -1) ∧
    (r.isFault = true → (0 : Int) ≤ r.newPageIndex) := by
  obtain ⟨f, s, j, p, hinv, rfl⟩ := buildHist_mem fc hfc refs _ _ 0 (inv_init fc) r hr
  by_cases hhit : some p ∈ f
  · rw [processPage_hit f s j p hhit]
    exact ⟨Or.inl ⟨rfl, rfl⟩, fun _ => ⟨rfl, rfl, rfl⟩, fun hc => Bool.noConfusion hc⟩
  · cases hempty : idxOf? (none : Option Nat) f with
    | some e =>
        rw [processPage_fault_empty f s j p hhit hempty]
        exact ⟨Or.inr ⟨rfl, rfl⟩, fun hc => Bool.noConfusion hc,
          fun _ => Int.natCast_nonneg e⟩
    | none =>
        have hfull' := idxOf?_eq_none_iff.mp hempty
        obtain ⟨victim, hv, rIdx, hidx⟩ := full_stack_top fc hfc hinv hfull'
        rw [processPage_fault_full f s j p hhit hempty hv hidx]
        exact ⟨Or.inr ⟨rfl, rfl⟩, fun hc => Bool.noConfusion hc,
          fun _ => Int.natCast_nonneg rIdx⟩

theorem C10_witness :
    (StepRecord.mk 1 4 [none] [] [some 4] [4] false true none (-1) 0).isFault = true ∧
    (0 : Int) ≤ (StepRecord.mk 1 4 [none] [] [some 4] [4] false true none (-1) 0).newPageIndex := by
  obtain ⟨-, -, hf⟩ :=
    C10_outcome_flags_and_sentinels 1 [4] (by decide)
      (StepRecord.mk 1 4 [none] [] [some 4] [4] false true none (-1) 0) (by decide)
  exact ⟨rfl, hf rfl⟩

/-- C4: for every produced StepRecord, the set of non-empty frame values
in its frames snapshot equals the set of elements of its stack snapshot,
both have at most frameCount elements, and no page appears in the stack
more than once. -/
theorem C4_stack_frame_consistency (fc : Nat) (refs : List Nat) (hfc : 1 ≤ fc)
    (r : StepRecord) (hr : r ∈ buildStateHistory fc refs) :
    (∀ p : Nat, p ∈ r.stackAfter ↔ some p ∈ r.framesAfter) ∧
    r.stackAfter.Nodup ∧
    r.stackAfter.length ≤ fc ∧
    r.framesAfter.length = fc := by
  obtain ⟨f, s, j, p, hinv, rfl⟩ := buildHist_mem fc hfc refs _ _ 0 (inv_init fc) r hr
  have hafter := inv_processPage fc hfc hinv j p
  exact ⟨hafter.mem_iff, hafter.nodupStack, inv_stack_length_le fc hafter, hafter.len⟩

theorem C4_witness :
    (9 ∈ (StepRecord.mk 1 9 [none, none] [] [some 9, none] [9]
        false true none (-1) 0).stackAfter ↔
      some 9 ∈ (StepRecord.mk 1 9 [none, none] [] [some 9, none] [9]
        false true none (-1) 0).framesAfter) ∧
    (StepRecord.mk 1 9 [none, none] [] [some 9, none] [9]
        false true none (-1) 0).stackAfter.Nodup := by
  obtain ⟨hiff, hnd, -, -⟩ :=
    C4_stack_frame_consistency 2 [9] (by decide)
      (StepRecord.mk 1 9 [none, none] [] [some 9, none] [9]
        false true none (-1) 0) (by decide)
  exact ⟨hiff 9, hnd⟩

end Lifo
